import Mathlib

/-!
Verification development for the dissect.target virtual path engine
(`dissect/target/helpers/compat/path_39.py`) and the AD1 filesystem
adapter (`dissect/target/filesystems/ad1.py`).

The Python code is shallowly embedded: paths are Lean `String`s, the
per-call resolution cache (`seen`) is an association list, a filesystem
backend is a finite symlink table plus an error map, and the recursive
`_resolve` helper is given an explicit fuel parameter (a `none` result
means the fuel ran out; all theorems either compute at concrete fuel or
are conditional on a `some` result).
-/

/-! ## String helpers

The resolver manipulates raw path strings with `str.split("/")`,
`str.rpartition("/")`, `str.startswith(sep)` and `str.endswith(sep)`
where `sep = "/"`.  These are reimplemented here on `List Char`.
-/

/-- Python `s.split("/")` on the character list: `""` splits to `[""]`,
separators produce empty components. -/
def splitSlash : List Char → List (List Char)
  | [] => [[]]
  | c :: cs =>
    if c = '/' then [] :: splitSlash cs
    else
      match splitSlash cs with
      | [] => [[c]]
      | g :: gs => (c :: g) :: gs

/-- Python `rest.split(sep)` with `sep = "/"`. -/
def pySplit (s : String) : List String :=
  (splitSlash s.data).map String.mk

/-- The part of the character list before its last `'/'`;
`none` when there is no `'/'` at all. -/
def rpartCh : List Char → Option (List Char)
  | [] => none
  | c :: cs =>
    match rpartCh cs with
    | some r => some (c :: r)
    | none => if c = '/' then some [] else none

/-- First component of Python `path.rpartition(sep)` with `sep = "/"`:
everything before the last separator, `""` when the separator is absent
(the resolver only uses this first component). -/
def rpartitionBefore (s : String) : String :=
  match rpartCh s.data with
  | some r => String.mk r
  | none => ""

/-- Python `rest.startswith(sep)` with `sep = "/"`. -/
def startsWithSlash (s : String) : Bool :=
  match s.data with
  | [] => false
  | c :: _ => c = '/'

/-- Python `path.endswith(sep)` with `sep = "/"`. -/
def endsWithSlash (s : String) : Bool :=
  match s.data.getLast? with
  | some c => c = '/'
  | none => false

/-- Builds `newpath = path + name if path.endswith(sep) else path + sep + name`
(source line 89; also `_make_child_relpath`, which appends one component
to a path string). -/
def appendName (path name : String) : String :=
  if endsWithSlash path then path ++ name else path ++ "/" ++ name

/-! ## The unified error taxonomy (spec section 7) -/

/-- Backend-level `FilesystemError` variants relevant to the resolver:
`NotASymlinkError`, `FileNotFoundError`, and any other backend failure. -/
inductive FsErr
  | notASymlink
  | fileNotFound
  | backendError
  deriving DecidableEq

/-- Failures that `resolve` itself can produce: `SymlinkRecursionError`
(carrying the offending path, source line 97) or a propagated
backend failure. -/
inductive ResolveErr
  | symlinkRecursion (path : String)
  | fsError (e : FsErr)
  deriving DecidableEq

/-! ## Filesystem model for the resolver

A backend is modelled by its (finite) symlink table together with the
failure `readlink` reports on every other path: `accessor.readlink`
either returns the link target or raises a `FilesystemError`
(`NotASymlinkError` for an existing non-link, `FileNotFoundError` for a
missing path, or some other backend error). -/

structure Fs where
  links : List (String × String)
  errOf : String → FsErr

/-- Embeds `accessor.readlink(fs.path(newpath))` (source line 100). -/
def Fs.readlink (fs : Fs) (p : String) : Except FsErr String :=
  match fs.links.lookup p with
  | some t => .ok t
  | none => .error (fs.errOf p)

/-- The per-call resolution cache `seen`: a path maps to `none` while its
link target is still being resolved (the "in progress" sentinel) and to
`some s` once resolved to `s`. -/
abbrev Seen := List (String × Option String)

/-- Dictionary lookup in `seen`. -/
def seenGet : Seen → String → Option (Option String)
  | [], _ => none
  | (k, v) :: rest, key => if k = key then some v else seenGet rest key

/-- Dictionary assignment `seen[k] = v` (replace if present, append
otherwise). -/
def seenSet : Seen → String → Option String → Seen
  | [], k, v => [(k, v)]
  | (k', v') :: rest, k, v =>
    if k' = k then (k, v) :: rest else (k', v') :: seenSet rest k v

/-! ## The resolution algorithm (`_DissectFlavour.resolve`, lines 72-116)

`resolveGo` is the `for name in rest.split(sep)` loop of the inner
`_resolve`; the recursive `_resolve` call used for a symlink target is
abstracted as the parameter `recur`.  `resolveRec` ties the knot with an
explicit fuel: `resolveRec (fuel+1) seen path rest` is one invocation of
`_resolve(fs, path, rest)`. -/

def resolveGo (fs : Fs) (strict : Bool)
    (recur : Seen → String → String → Option (Except ResolveErr (String × Seen)))
    (seen : Seen) (path : String) :
    List String → Option (Except ResolveErr (String × Seen))
  | [] => some (.ok (path, seen))
  | name :: names =>
    if name = "" ∨ name = "." then
      -- current dir
      resolveGo fs strict recur seen path names
    else if name = ".." then
      -- parent dir: `path, _, _ = path.rpartition(sep)`
      resolveGo fs strict recur seen (rpartitionBefore path) names
    else
      let newpath := appendName path name
      match seenGet seen newpath with
      | some (some cached) =>
        -- already seen this path; use cached value
        resolveGo fs strict recur seen cached names
      | some none =>
        -- the symlink is not resolved, so we must have a symlink loop
        some (.error (.symlinkRecursion newpath))
      | none =>
        match fs.readlink newpath with
        | .error e =>
          if e ≠ FsErr.notASymlink ∧ strict then
            -- re-raise the underlying failure
            some (.error (.fsError e))
          else
            -- not a symlink, or non-strict mode: leave the path untouched
            resolveGo fs strict recur seen newpath names
        | .ok target =>
          match recur (seenSet seen newpath none) path target with
          | none => none
          | some (.error err) => some (.error err)
          | some (.ok (p', seen')) =>
            resolveGo fs strict recur (seenSet seen' newpath (some p')) p' names

/-- One invocation of the inner `_resolve(fs, path, rest)`:
reset `path` when `rest` is absolute, then walk its components. -/
def resolveRec (fs : Fs) (strict : Bool) :
    Nat → Seen → String → String → Option (Except ResolveErr (String × Seen))
  | 0 => fun _ _ _ => none
  | fuel + 1 => fun seen path rest =>
    resolveGo fs strict (resolveRec fs strict fuel) seen
      (if startsWithSlash rest then "" else path) (pySplit rest)

/-- The body of `_DissectFlavour.resolve` before the final `or sep`:
`_resolve(path._fs, "", str(path))` with a fresh `seen`. -/
def flavourResolveRaw (fs : Fs) (strict : Bool) (fuel : Nat) (p : String) :
    Option (Except ResolveErr String) :=
  (resolveRec fs strict fuel [] "" p).map (Except.map Prod.fst)

/-- Embeds `_DissectFlavour.resolve`: `return _resolve(path._fs, "", str(path)) or sep`
(line 116).  The walk returns a string, so `or sep` only turns the empty
string into the separator. -/
def flavourResolve (fs : Fs) (strict : Bool) (fuel : Nat) (p : String) :
    Option (Except ResolveErr String) :=
  (flavourResolveRaw fs strict fuel p).map
    (Except.map fun s => if s = "" then "/" else s)

/-! ## `TargetPath.resolve` (lines 387-403) -/

/-- Modelled from the spec: `polypath.normpath` is not part of the given
sources; the spec (section 4.5) describes the final pass as applying
`..`/`.` normalization to the resolved string.  Components are folded
left to right, dropping empty and `"."` components and letting `".."`
truncate the accumulated component list. -/
def normSteps : List String → List String → List String
  | acc, [] => acc
  | acc, c :: cs =>
    if c = "" ∨ c = "." then normSteps acc cs
    else if c = ".." then normSteps acc.dropLast cs
    else normSteps (acc ++ [c]) cs

/-- Join components below the root: `joinComps ["a", "b"] = "/a/b"` and
`joinComps [] = ""`.  This is exactly the shape produced by repeated
`appendName` starting from the empty accumulated path. -/
def joinComps (cs : List String) : String :=
  cs.foldl (fun a c => appendName a c) ""

/-- Modelled from the spec: `polypath.normpath` (missing from the given
sources), the `..`/`.` normalization applied to the resolved string. -/
def normpath (s : String) : String :=
  let comps := normSteps [] (pySplit s)
  if startsWithSlash s then
    if joinComps comps = "" then "/" else joinComps comps
  else
    if comps = [] then "." else String.intercalate "/" comps

/-- Embeds `TargetPath.resolve` with the `if s is None:` fallback branch kept
explicit: `_DissectFlavour.resolve` returns `_resolve(...) or sep`, a
string, so the value bound to `s` is modelled as `some` of a string and
the fallback (source lines 394-398: `self.stat()` then
`str(self.absolute())`) is an arbitrary `fallback` computation. -/
def targetResolveWith (fallback : Option (Except ResolveErr String))
    (fs : Fs) (strict : Bool) (fuel : Nat) (p : String) :
    Option (Except ResolveErr String) :=
  match (flavourResolve fs strict fuel p).map (Except.map some) with
  | none => none
  | some (.error e) => some (.error e)
  | some (.ok none) => fallback
  | some (.ok (some s)) => some (.ok (normpath s))

/-- Embeds `TargetPath.resolve(strict)` as a function from the path string to
the canonical string of the returned path object. -/
def targetResolve (fs : Fs) (strict : Bool) (fuel : Nat) (p : String) :
    Option (Except ResolveErr String) :=
  targetResolveWith none fs strict fuel p

/-! ## `TargetPath.walk` (lines 332-376)

The source keeps a worklist `paths` holding either path objects or
already-built `(path, dirnames, filenames)` tuples (distinguished by
`isinstance(path, tuple)`), pops from the end and extends with the
children of the popped directory in reversed order.  Here the worklist
is kept reversed, so Python's pop-from-the-end is `head` and
`paths += [child(d) for d in reversed(dirnames)]` prepends the children
in their original order.  A scandir entry is modelled as its name
together with the outcome of `entry.is_dir(follow_symlinks=...)` (an
`OSError` from `is_dir` is already folded into `False` by the source).
`on_error` cannot be a Lean side effect, so the failures handed to it
are collected in a second output list (`onErr = false` models
`on_error=None`, where the failure is swallowed); `walkGo` also returns
the leftover fuel.  Backend failures are modelled as `FsErr`
(`FilesystemError` is an `OSError` in dissect.target, so the source's
`except OSError` catches them). -/

/-- One `(path, dirnames, filenames)` triple. -/
abbrev WalkTriple := String × List String × List String

/-- A worklist item: a path still to be scanned, or a buffered triple. -/
inductive WItem
  | path (p : String)
  | triple (t : WalkTriple)
  deriving DecidableEq

/-- A backend for `walk`: scandir returns the child names with their
`is_dir` outcomes, or fails for an unreadable directory. -/
structure WalkFs where
  scandir : String → Except FsErr (List (String × Bool))

/-- The names appended to `dirnames` by the partitioning loop. -/
def dirnamesOf (entries : List (String × Bool)) : List String :=
  (entries.filter fun e => e.2).map fun e => e.1

/-- The names appended to `filenames` by the partitioning loop. -/
def filenamesOf (entries : List (String × Bool)) : List String :=
  (entries.filter fun e => !e.2).map fun e => e.1

/-- The `while paths:` loop of `TargetPath.walk`, one fuel per
iteration. -/
def walkGo (fs : WalkFs) (topDown onErr : Bool) :
    Nat → List WItem → Option (List WalkTriple × List FsErr × Nat)
  | fuel, [] => some ([], [], fuel)
  | 0, _ :: _ => none
  | fuel + 1, item :: stk =>
    match item with
    | .triple t =>
      (walkGo fs topDown onErr fuel stk).map fun r => (t :: r.1, r.2.1, r.2.2)
    | .path p =>
      match fs.scandir p with
      | .error e =>
        -- `except OSError as e: if on_error is not None: on_error(e); continue`
        (walkGo fs topDown onErr fuel stk).map fun r =>
          (r.1, if onErr then e :: r.2.1 else r.2.1, r.2.2)
      | .ok entries =>
        let dn := dirnamesOf entries
        let fn := filenamesOf entries
        let children := dn.map fun d => WItem.path (appendName p d)
        if topDown then
          (walkGo fs topDown onErr fuel (children ++ stk)).map fun r =>
            ((p, dn, fn) :: r.1, r.2.1, r.2.2)
        else
          walkGo fs topDown onErr fuel (children ++ WItem.triple (p, dn, fn) :: stk)

/-- Embeds `TargetPath.walk` started on one root path. -/
def walkRun (fs : WalkFs) (topDown onErr : Bool) (fuel : Nat) (root : String) :
    Option (List WalkTriple × List FsErr × Nat) :=
  walkGo fs topDown onErr fuel [.path root]

/-! ## `AD1FilesystemEntry.stat` / `lstat` (ad1.py lines 81-87) -/

/-- Constant `stat.S_IFREG`. -/
def S_IFREG : Nat := 0x8000

/-- Constant `stat.S_IFDIR`. -/
def S_IFDIR : Nat := 0x4000

/-- Modelled from the spec: `fsutil.stat_result` (missing from the given
sources) is the synthesized stat tuple
`[mode, ino, dev, nlink, uid, gid, size, atime, mtime, ctime]`. -/
structure StatResult where
  mode : Nat
  ino : Nat
  dev : Nat
  nlink : Nat
  uid : Nat
  gid : Nat
  size : Nat
  atime : Nat
  mtime : Nat
  ctime : Nat
  deriving DecidableEq

/-- An AD1 backend entry: its `is_dir()`/`is_file()` answers and its
backend-reported size. -/
structure AD1Entry where
  isDir : Bool
  isFile : Bool
  size : Nat
  deriving DecidableEq

/-- Embeds `AD1FilesystemEntry.lstat`.  Here `addr` stands for
`fsutil.generate_addr(self.path, ...)` (missing from the given sources;
per the spec a pure hash of the normalized path string) and `fsId` for
`id(self.fs)`.  The source builds
`stat_result([stat.S_IFREG, entry_addr, id(self.fs), 1, 0, 0, size, 0, 0, 0])`
with `size = self.entry.size if self.entry.is_file() else 0`. -/
def ad1Lstat (addr : String → Nat) (fsId : Nat) (path : String) (e : AD1Entry) :
    StatResult :=
  { mode := S_IFREG
    ino := addr path
    dev := fsId
    nlink := 1
    uid := 0
    gid := 0
    size := if e.isFile then e.size else 0
    atime := 0
    mtime := 0
    ctime := 0 }

/-- Embeds `AD1FilesystemEntry.stat`, which simply defers to `lstat` (line 82). -/
def ad1Stat (_followSymlinks : Bool) (addr : String → Nat) (fsId : Nat)
    (path : String) (e : AD1Entry) : StatResult :=
  ad1Lstat addr fsId path e

/-! ## `_DissectFlavour.__new__` interning (lines 44-61)

The class-level `__variant_instances` dictionary is the state; object
identity is modelled by a numeric id, with `nextId` standing for the
allocation of a fresh `_PosixFlavour.__new__(cls)` instance. -/

/-- The class-level cache of flavour instances plus an identity
allocator. -/
structure FlavourState where
  cache : List ((Bool × String) × Nat)
  nextId : Nat
  deriving DecidableEq

/-- Dictionary lookup in `__variant_instances`. -/
def cacheGet : List ((Bool × String) × Nat) → Bool × String → Option Nat
  | [], _ => none
  | (k, v) :: rest, key => if k = key then some v else cacheGet rest key

/-- Embeds `_DissectFlavour.__new__(cls, case_sensitive, alt_separator)`:
return the interned instance for `(case_sensitive, alt_separator)`,
creating and caching a fresh one on a miss. -/
def flavourNew (st : FlavourState) (caseSensitive : Bool) (altSeparator : String) :
    Nat × FlavourState :=
  match cacheGet st.cache (caseSensitive, altSeparator) with
  | some instanceId => (instanceId, st)
  | none =>
    (st.nextId,
     { cache := st.cache ++ [((caseSensitive, altSeparator), st.nextId)]
       nextId := st.nextId + 1 })

/-! ## `TargetPath.iterdir` (lines 319-329) -/

/-- Embeds `TargetPath.iterdir`: for each scandir entry, skip the special names
`"."` and `".."` and yield the child path for every other name
(`_make_child_relpath(entry.name)`). -/
def iterdirModel (p : String) : List String → List String
  | [] => []
  | name :: rest =>
    if name = "." ∨ name = ".." then iterdirModel p rest
    else appendName p name :: iterdirModel p rest

/-! ## Decidable equality for `Except` results -/

instance {ε α : Type} [DecidableEq ε] [DecidableEq α] : DecidableEq (Except ε α) :=
  fun x y =>
    match x, y with
    | .ok a, .ok b =>
      if h : a = b then .isTrue (congrArg Except.ok h)
      else .isFalse fun he => h (Except.ok.inj he)
    | .error a, .error b =>
      if h : a = b then .isTrue (congrArg Except.error h)
      else .isFalse fun he => h (Except.error.inj he)
    | .ok _, .error _ => .isFalse fun he => Except.noConfusion he
    | .error _, .ok _ => .isFalse fun he => Except.noConfusion he

/-! ## Concrete fixtures used by the claim theorems -/

/-- The two-link cycle of the spec's cycle-detection property:
`/a` points to `/b` and `/b` points to `/a`. -/
def cycleFs : Fs := ⟨[("/a", "/b"), ("/b", "/a")], fun _ => .fileNotFound⟩

/-- A namespace with no entries at all: every `readlink` fails with
`FileNotFoundError`. -/
def emptyFs : Fs := ⟨[], fun _ => .fileNotFound⟩

/-- A namespace whose only symlink is `/a -> /b`; everything else is an
existing non-link. -/
def linkFs : Fs := ⟨[("/a", "/b")], fun _ => .notASymlink⟩

/-- A namespace where reading `/x` fails with a generic backend error
and everything else is an existing non-link. -/
def strictFs : Fs :=
  ⟨[], fun p => if p = "/x" then .backendError else .notASymlink⟩

/-- The walk fault-tolerance scenario: `/a` holds directories `bad`
(whose listing fails) and `ok` (which holds one file). -/
def walkFsA : WalkFs :=
  ⟨fun p =>
    if p = "/a" then .ok [("bad", true), ("ok", true)]
    else if p = "/a/ok" then .ok [("file", false)]
    else .error .backendError⟩

/-- A two-level tree for the ordering witness: `/r` holds one directory
`d`, which is empty. -/
def walkFsB : WalkFs :=
  ⟨fun p =>
    if p = "/r" then .ok [("d", true)]
    else if p = "/r/d" then .ok []
    else .error .backendError⟩

/-- States whether `accessor.readlink` succeeds on a path (the path is a
readable symlink). -/
def linkSucceeds (fs : Fs) (q : String) : Bool :=
  match fs.readlink q with
  | .ok _ => true
  | .error _ => false

/-- A component produced by a successful walk: nonempty, not a dot
component, and free of separators. -/
def ValidName (n : String) : Prop :=
  n ≠ "" ∧ n ≠ "." ∧ n ≠ ".." ∧ '/' ∉ n.data

/-- Every nonempty component-level ancestor of the component list fails
`readlink`: the walk vetted each of them. -/
def VettedComps (fs : Fs) (cs : List String) : Prop :=
  ∀ ds es, cs = ds ++ es → ds ≠ [] → linkSucceeds fs (joinComps ds) = false

/-- Invariant of accumulated path strings inside the resolver: the image
of a valid, vetted component list under `joinComps`. -/
def GoodStr (fs : Fs) (s : String) : Prop :=
  ∃ cs, (∀ c ∈ cs, ValidName c) ∧ VettedComps fs cs ∧ s = joinComps cs

/-- Invariant of the resolution cache: every fully-resolved value stored
in it satisfies `GoodStr`. -/
def SeenOk (fs : Fs) (seen : Seen) : Prop :=
  ∀ k v, seenGet seen k = some (some v) → GoodStr fs v


theorem cacheGet_append_self (l : List ((Bool × String) × Nat)) (k : Bool × String)
    (v : Nat) (h : cacheGet l k = none) : cacheGet (l ++ [(k, v)]) k = some v := by
  induction l with
  | nil => simp [cacheGet]
  | cons kv rest ih =>
    obtain ⟨k', v'⟩ := kv
    simp only [cacheGet] at h ⊢
    by_cases hk : k' = k
    · rw [if_pos hk] at h; cases h
    · rw [if_neg hk] at h
      rw [if_neg hk]
      simpa using ih h

/-- C9: constructing a flavour twice with equal
`(case_sensitive, alt_separator)` parameters yields the same interned
instance: the second construction returns the same instance id and
leaves the cache state unchanged. -/
theorem flavour_interning :
    ∀ (st : FlavourState) (cs : Bool) (alt : String),
      (flavourNew (flavourNew st cs alt).2 cs alt).1 = (flavourNew st cs alt).1
      ∧ (flavourNew (flavourNew st cs alt).2 cs alt).2 = (flavourNew st cs alt).2 := by
  intro st cs alt
  unfold flavourNew
  rcases h : cacheGet st.cache (cs, alt) with _ | instanceId
  · simp only [h]
    have h2 := cacheGet_append_self st.cache (cs, alt) st.nextId h
    simp [h2]
  · simp [h]

/-- C10: iterdir yields exactly one child path per backend-reported
name except the special names `.` and `..`, which are filtered out and
never yielded. -/
theorem iterdir_skips_special_names :
    (∀ (p : String) (entries : List String),
      iterdirModel p entries
        = (entries.filter fun n => !(n == "." || n == "..")).map (appendName p))
    ∧ iterdirModel "/d" [".", "..", "x", "y"] = ["/d/x", "/d/y"] := by
  constructor
  · intro p entries
    induction entries with
    | nil => rfl
    | cons n rest ih =>
      simp only [iterdirModel]
      by_cases h : n = "." ∨ n = ".."
      · have hp : (!(n == "." || n == "..")) = false := by
          rcases h with h | h <;> simp [h]
        rw [if_pos h, ih, List.filter_cons]
        simp [hp]
      · have hp : (!(n == "." || n == "..")) = true := by
          simp only [not_or] at h
          simp [h.1, h.2]
        rw [if_neg h, List.filter_cons]
        simp [hp, ih]
  · decide

/-- C8: evaluation of `AD1FilesystemEntry.stat`/`lstat` at the failing
input (a directory entry): the file-type bits are the regular-file
constant `S_IFREG` even for a directory - diverging from the claim that
directories get directory-type bits - while link count 1, uid/gid 0,
size (backend size for files, 0 for directories) and the three zero
timestamps all match the claim. -/
theorem ad1_stat_regular_mode :
    (ad1Lstat (fun _ => 0) 0 "/d" ⟨true, false, 0⟩).mode = S_IFREG
    ∧ S_IFREG ≠ S_IFDIR
    ∧ ad1Stat true (fun _ => 0) 0 "/d" ⟨true, false, 0⟩
        = ad1Lstat (fun _ => 0) 0 "/d" ⟨true, false, 0⟩
    ∧ (ad1Lstat (fun _ => 0) 0 "/d" ⟨true, false, 0⟩).nlink = 1
    ∧ (ad1Lstat (fun _ => 0) 0 "/d" ⟨true, false, 0⟩).uid = 0
    ∧ (ad1Lstat (fun _ => 0) 0 "/d" ⟨true, false, 0⟩).gid = 0
    ∧ (ad1Lstat (fun _ => 0) 0 "/d" ⟨true, false, 0⟩).size = 0
    ∧ (ad1Lstat (fun _ => 0) 0 "/f" ⟨false, true, 5⟩).size = 5
    ∧ (ad1Lstat (fun _ => 0) 0 "/d" ⟨true, false, 0⟩).atime = 0
    ∧ (ad1Lstat (fun _ => 0) 0 "/d" ⟨true, false, 0⟩).mtime = 0
    ∧ (ad1Lstat (fun _ => 0) 0 "/d" ⟨true, false, 0⟩).ctime = 0 := by
  refine ⟨rfl, by decide, rfl, rfl, rfl, rfl, rfl, rfl, rfl, rfl, rfl⟩

/-- C4: in a namespace containing neither `/missing` nor
`/also_missing`, non-strict `resolve("/missing/../also_missing")`
succeeds and returns `/also_missing`; a `.` (or empty) component is
skipped outright and `..` truncates the accumulated string to its parent
by string rpartition, with no backend access in either step. -/
theorem resolve_nonstrict_missing_literal :
    targetResolve emptyFs false 1 "/missing/../also_missing" = some (.ok "/also_missing")
    ∧ (∀ (fs : Fs) (strict : Bool) recur seen path names,
        resolveGo fs strict recur seen path ("." :: names)
          = resolveGo fs strict recur seen path names)
    ∧ (∀ (fs : Fs) (strict : Bool) recur seen path names,
        resolveGo fs strict recur seen path (".." :: names)
          = resolveGo fs strict recur seen (rpartitionBefore path) names) := by
  refine ⟨by decide, ?_, ?_⟩
  · intro fs strict recur seen path names
    simp [resolveGo]
  · intro fs strict recur seen path names
    simp [resolveGo]

/-- C5 counterexample: on an empty namespace, non-strict
`resolve("/..")` - a non-existent path whose walk accumulates the empty
string - returns `/` rather than propagating NotFound, even when the
modelled stat fallback stands ready to report NotFound. -/
theorem resolve_stat_fallback_counterexample :
    targetResolveWith (some (.error (.fsError .fileNotFound))) emptyFs false 2 "/.."
      = some (.ok "/")
    ∧ targetResolveWith (some (.error (.fsError .fileNotFound))) emptyFs false 2 "/.."
        ≠ some (.error (.fsError .fileNotFound)) := by decide

/-- C5 (amended): the flavour itself renders an empty walk result as
the separator alone, so its result is never null; consequently the
stat-based fallback branch of `TargetPath.resolve` is unreachable (the
result is independent of the fallback computation) and resolve succeeds
with `/`. -/
theorem resolve_empty_renders_root :
    (∀ fb1 fb2 (fs : Fs) (strict : Bool) fuel p,
        targetResolveWith fb1 fs strict fuel p = targetResolveWith fb2 fs strict fuel p)
    ∧ (∀ (fs : Fs) (strict : Bool) fuel p,
        flavourResolveRaw fs strict fuel p = some (.ok "") →
          flavourResolve fs strict fuel p = some (.ok "/"))
    ∧ targetResolve emptyFs false 2 "/.." = some (.ok "/") := by
  refine ⟨?_, ?_, by decide⟩
  · intro fb1 fb2 fs strict fuel p
    unfold targetResolveWith
    rcases h : flavourResolve fs strict fuel p with _ | r
    · simp [h]
    · rcases r with e | s <;> simp [h, Except.map]
  · intro fs strict fuel p h
    unfold flavourResolve
    rw [h]
    simp [Except.map]

theorem resolveGo_mono {fs : Fs} {strict : Bool}
    {recur recur' : Seen → String → String → Option (Except ResolveErr (String × Seen))}
    (hmono : ∀ seen path rest r, recur seen path rest = some r → recur' seen path rest = some r) :
    ∀ (names : List String) (seen : Seen) (path : String) r,
      resolveGo fs strict recur seen path names = some r →
      resolveGo fs strict recur' seen path names = some r := by
  intro names
  induction names with
  | nil => intro seen path r hr; simpa [resolveGo] using hr
  | cons name names ih =>
    intro seen path r hr
    simp only [resolveGo] at hr ⊢
    by_cases h1 : name = "" ∨ name = "."
    · rw [if_pos h1] at hr ⊢
      exact ih _ _ _ hr
    · rw [if_neg h1] at hr ⊢
      by_cases h2 : name = ".."
      · rw [if_pos h2] at hr ⊢
        exact ih _ _ _ hr
      · rw [if_neg h2] at hr ⊢
        rcases hsg : seenGet seen (appendName path name) with _ | ov
        · simp only [hsg] at hr ⊢
          rcases hrl : fs.readlink (appendName path name) with e | t
          · simp only [hrl] at hr ⊢
            by_cases h3 : e ≠ FsErr.notASymlink ∧ strict = true
            · rw [if_pos h3] at hr ⊢; exact hr
            · rw [if_neg h3] at hr ⊢; exact ih _ _ _ hr
          · simp only [hrl] at hr ⊢
            rcases hrec : recur (seenSet seen (appendName path name) none) path t with _ | r'
            · simp [hrec] at hr
            · rw [hmono _ _ _ _ hrec]
              simp only [hrec] at hr
              rcases r' with err | pr
              · simpa using hr
              · obtain ⟨p', seen'⟩ := pr
                exact ih _ _ _ hr
        · rcases ov with _ | cached
          · simp only [hsg] at hr ⊢; exact hr
          · simp only [hsg] at hr ⊢; exact ih _ _ _ hr

theorem resolveRec_mono {fs : Fs} {strict : Bool} :
    ∀ {f f' : Nat}, f ≤ f' →
      ∀ seen path rest r, resolveRec fs strict f seen path rest = some r →
        resolveRec fs strict f' seen path rest = some r := by
  intro f
  induction f with
  | zero =>
    intro f' _ seen path rest r hr
    simp [resolveRec] at hr
  | succ f ihf =>
    intro f' hle
    cases f' with
    | zero => exact absurd hle (by omega)
    | succ f'' =>
      intro seen path rest r hr
      simp only [resolveRec] at hr ⊢
      exact resolveGo_mono (fun s p t r h => ihf (by omega) s p t r h) _ _ _ _ hr

/-- C1: a symlink cycle (`/a` pointing to `/b` and `/b` back to `/a`)
makes `resolve("/a")` fail with `SymlinkRecursionError("/a")` in both
strict and non-strict mode: the walk revisits the candidate `/a` while
the per-call cache still maps it to the in-progress sentinel.  Any
additional fuel gives the same outcome. -/
theorem resolve_cycle_symlink_recursion :
    ∀ (strict : Bool) (extraFuel : Nat),
      targetResolve cycleFs strict (extraFuel + 3) "/a"
        = some (.error (.symlinkRecursion "/a")) := by
  intro strict extraFuel
  have base : resolveRec cycleFs strict 3 [] "" "/a"
      = some (.error (.symlinkRecursion "/a")) := by
    cases strict <;> decide
  have hmono := resolveRec_mono (by omega : 3 ≤ extraFuel + 3) [] "" "/a" _ base
  unfold targetResolve targetResolveWith flavourResolve flavourResolveRaw
  rw [hmono]
  simp [Except.map]

/-- C6: when listing a directory fails, walk with an onError handler
hands the failure to the handler and continues with exactly the
remaining worklist, so every sibling whose listing succeeds is still
reported and the walk never aborts; concretely, with `/a/bad` unreadable
the walk of `/a` still yields the triples of `/a` and `/a/ok`. -/
theorem walk_onerror_fault_tolerance :
    (∀ (fs : WalkFs) (topDown : Bool) (fuel : Nat) (p : String) (stk : List WItem) (e : FsErr),
        fs.scandir p = .error e →
          walkGo fs topDown true (fuel + 1) (.path p :: stk)
            = (walkGo fs topDown true fuel stk).map fun r => (r.1, e :: r.2.1, r.2.2))
    ∧ walkRun walkFsA true true 10 "/a"
        = some ([("/a", ["bad", "ok"], []), ("/a/ok", [], ["file"])], [.backendError], 7) := by
  constructor
  · intro fs topDown fuel p stk e he
    simp [walkGo, he]
  · decide

theorem resolveGo_no_nas {fs : Fs} {strict : Bool}
    {recur : Seen → String → String → Option (Except ResolveErr (String × Seen))}
    (hrec : ∀ seen path rest,
      recur seen path rest ≠ some (.error (.fsError FsErr.notASymlink))) :
    ∀ names seen path,
      resolveGo fs strict recur seen path names
        ≠ some (.error (.fsError FsErr.notASymlink)) := by
  intro names
  induction names with
  | nil => intro seen path h; simp [resolveGo] at h
  | cons name names ih =>
    intro seen path h
    simp only [resolveGo] at h
    by_cases h1 : name = "" ∨ name = "."
    · rw [if_pos h1] at h; exact ih _ _ h
    · rw [if_neg h1] at h
      by_cases h2 : name = ".."
      · rw [if_pos h2] at h; exact ih _ _ h
      · rw [if_neg h2] at h
        rcases hsg : seenGet seen (appendName path name) with _ | ov
        · simp only [hsg] at h
          rcases hrl : fs.readlink (appendName path name) with e | t
          · simp only [hrl] at h
            by_cases h3 : e ≠ FsErr.notASymlink ∧ strict = true
            · rw [if_pos h3] at h
              simp only [Option.some.injEq, Except.error.injEq,
                ResolveErr.fsError.injEq] at h
              exact h3.1 h
            · rw [if_neg h3] at h; exact ih _ _ h
          · simp only [hrl] at h
            rcases hr2 : recur (seenSet seen (appendName path name) none) path t with _ | r'
            · simp [hr2] at h
            · simp only [hr2] at h
              rcases r' with err | pr
              · simp only [Option.some.injEq, Except.error.injEq] at h
                exact hrec _ _ _ (h ▸ hr2)
              · obtain ⟨p', seen'⟩ := pr
                exact ih _ _ h
        · rcases ov with _ | cached
          · simp only [hsg] at h
            simp at h
          · simp only [hsg] at h; exact ih _ _ h

theorem resolveRec_no_nas {fs : Fs} {strict : Bool} :
    ∀ (fuel : Nat) seen path rest,
      resolveRec fs strict fuel seen path rest
        ≠ some (.error (.fsError FsErr.notASymlink)) := by
  intro fuel
  induction fuel with
  | zero => intro seen path rest h; simp [resolveRec] at h
  | succ fuel ih =>
    intro seen path rest h
    simp only [resolveRec] at h
    exact resolveGo_no_nas (fun s p t => ih s p t) _ _ _ h

/-- C3: when reading a candidate component as a symlink fails, the
candidate is adopted literally whenever the failure is NotASymlink or
strict mode is off; in strict mode any other filesystem failure
propagates out of the loop as that same failure; and a NotASymlink
failure is never propagated by resolve at any fuel. -/
theorem resolve_readlink_failure_handling :
    (∀ (fs : Fs) (strict : Bool) recur (seen : Seen) (path name : String)
        (names : List String) (e : FsErr),
        name ≠ "" → name ≠ "." → name ≠ ".." →
        seenGet seen (appendName path name) = none →
        fs.readlink (appendName path name) = .error e →
        (e = .notASymlink ∨ strict = false) →
        resolveGo fs strict recur seen path (name :: names)
          = resolveGo fs strict recur seen (appendName path name) names)
    ∧ (∀ (fs : Fs) (strict : Bool) recur (seen : Seen) (path name : String)
        (names : List String) (e : FsErr),
        name ≠ "" → name ≠ "." → name ≠ ".." →
        seenGet seen (appendName path name) = none →
        fs.readlink (appendName path name) = .error e →
        e ≠ .notASymlink → strict = true →
        resolveGo fs strict recur seen path (name :: names)
          = some (.error (.fsError e)))
    ∧ (∀ (fs : Fs) (strict : Bool) (fuel : Nat) (p : String),
        targetResolve fs strict fuel p ≠ some (.error (.fsError .notASymlink))) := by
  refine ⟨?_, ?_, ?_⟩
  · intro fs strict recur seen path name names e hne hnd hndd hsg hrl hcase
    have h1 : ¬(name = "" ∨ name = ".") := by rintro (h | h); exacts [hne h, hnd h]
    simp only [resolveGo]
    rw [if_neg h1, if_neg hndd]
    simp only [hsg, hrl]
    rw [if_neg (by rcases hcase with h | h <;> simp [h])]
  · intro fs strict recur seen path name names e hne hnd hndd hsg hrl hnas hstrict
    have h1 : ¬(name = "" ∨ name = ".") := by rintro (h | h); exacts [hne h, hnd h]
    simp only [resolveGo]
    rw [if_neg h1, if_neg hndd]
    simp only [hsg, hrl]
    rw [if_pos ⟨hnas, hstrict⟩]
  · intro fs strict fuel p h
    unfold targetResolve targetResolveWith flavourResolve flavourResolveRaw at h
    rcases hr : resolveRec fs strict fuel [] "" p with _ | r
    · rw [hr] at h; simp at h
    · rw [hr] at h
      rcases r with err | pr
      · simp only [Option.map_some', Except.map] at h
        simp only [Option.some.injEq] at h
        have : err = .fsError FsErr.notASymlink := by
          cases h' : err with
          | symlinkRecursion pth =>
            simp [h'] at h
          | fsError e2 =>
            simp [h'] at h
            simp [h]
        exact resolveRec_no_nas fuel [] "" p (this ▸ hr)
      · obtain ⟨p', seen'⟩ := pr
        simp [Except.map] at h

theorem mem_of_getLastQ : ∀ (l : List Char) (x : Char), l.getLast? = some x → x ∈ l := by
  intro l
  induction l with
  | nil => intro x h; cases h
  | cons c l ih =>
    intro x h
    rcases hl : l with _ | ⟨d, ds⟩
    · subst hl
      simp only [List.getLast?_singleton, Option.some.injEq] at h
      simp [h]
    · subst hl
      rw [List.getLast?_cons_cons] at h
      exact List.mem_cons_of_mem _ (ih x h)

theorem getLastQ_cons_ne {c : Char} {l : List Char} (h : l ≠ []) :
    (c :: l).getLast? = l.getLast? := by
  rcases l with _ | ⟨d, ds⟩
  · exact absurd rfl h
  · exact List.getLast?_cons_cons

theorem getLastQ_append_ne {l m : List Char} (h : m ≠ []) :
    (l ++ m).getLast? = m.getLast? := by
  induction l with
  | nil => rfl
  | cons c l' ih =>
    rw [List.cons_append, getLastQ_cons_ne (fun hx => h (List.append_eq_nil.mp hx).2), ih]

theorem ne_empty_data {c : String} (h : c ≠ "") : c.data ≠ [] :=
  fun hd => h (String.ext (by rw [hd]))

theorem data_appendName {a : String} (c : String) (ha : endsWithSlash a = false) :
    (appendName a c).data = a.data ++ '/' :: c.data := by
  unfold appendName
  rw [if_neg (by simp [ha])]
  have hslash : ("/" : String).data = ['/'] := rfl
  simp [String.data_append, hslash]

theorem endsWithSlash_appendName {a c : String} (ha : endsWithSlash a = false)
    (hc : c ≠ "") (hs : '/' ∉ c.data) : endsWithSlash (appendName a c) = false := by
  unfold endsWithSlash
  rw [data_appendName c ha]
  rcases hd : c.data with _ | ⟨d, ds⟩
  · exact absurd hd (ne_empty_data hc)
  · rw [getLastQ_append_ne (by simp), List.getLast?_cons_cons]
    rcases hgl : (d :: ds).getLast? with _ | x
    · rfl
    · have hx : x ∈ d :: ds := mem_of_getLastQ _ _ hgl
      have hxne : x ≠ '/' := fun he => hs (by rw [hd]; exact he ▸ hx)
      exact decide_eq_false hxne

theorem joinComps_concat (cs : List String) (c : String) :
    joinComps (cs ++ [c]) = appendName (joinComps cs) c := by
  unfold joinComps
  rw [List.foldl_append]
  rfl

theorem endsWithSlash_empty : endsWithSlash "" = false := rfl

theorem endsWithSlash_joinComps :
    ∀ (cs : List String), (∀ c ∈ cs, c ≠ "" ∧ '/' ∉ c.data) →
      endsWithSlash (joinComps cs) = false := by
  intro cs
  induction cs using List.reverseRecOn with
  | nil => intro _; rfl
  | append_singleton cs c ih =>
    intro h
    rw [joinComps_concat]
    have hc := h c (by simp)
    exact endsWithSlash_appendName
      (ih fun x hx => h x (by simp [hx])) hc.1 hc.2

theorem splitSlash_noslash : ∀ (l : List Char), '/' ∉ l → splitSlash l = [l] := by
  intro l
  induction l with
  | nil => intro _; rfl
  | cons c cs ih =>
    intro h
    have hc : ¬c = '/' := fun he => h (by simp [he])
    simp only [splitSlash, if_neg hc, ih (fun hm => h (List.mem_cons_of_mem _ hm))]

theorem splitSlash_append_noslash :
    ∀ (b : List Char), '/' ∉ b → ∀ (l : List Char) hd tl, splitSlash l = hd :: tl →
      splitSlash (b ++ l) = (b ++ hd) :: tl := by
  intro b
  induction b with
  | nil => intro _ l hd tl h; simpa using h
  | cons c b' ih =>
    intro h l hd tl hsp
    have hc : ¬c = '/' := fun he => h (by simp [he])
    rw [List.cons_append]
    simp only [splitSlash, if_neg hc,
      ih (fun hm => h (List.mem_cons_of_mem _ hm)) l hd tl hsp]
    simp

theorem splitSlash_blocks :
    ∀ (bs : List (List Char)), (∀ b ∈ bs, '/' ∉ b) →
      splitSlash ((bs.map (fun b => '/' :: b)).flatten) = [] :: bs := by
  intro bs
  induction bs with
  | nil => intro _; rfl
  | cons b rest ih =>
    intro h
    simp only [List.map_cons, List.flatten_cons, List.cons_append]
    simp only [splitSlash, if_pos rfl]
    have hrec := ih (fun x hx => h x (List.mem_cons_of_mem _ hx))
    rw [splitSlash_append_noslash b (h b (by simp)) _ [] rest hrec]
    simp

theorem joinComps_data :
    ∀ (cs : List String), (∀ c ∈ cs, c ≠ "" ∧ '/' ∉ c.data) →
      (joinComps cs).data = (cs.map (fun c => '/' :: c.data)).flatten := by
  intro cs
  induction cs using List.reverseRecOn with
  | nil => intro _; rfl
  | append_singleton cs c ih =>
    intro h
    rw [joinComps_concat,
      data_appendName c (endsWithSlash_joinComps cs fun x hx => h x (by simp [hx])),
      ih fun x hx => h x (by simp [hx])]
    simp

theorem mk_data_eq (s : String) : String.mk s.data = s := rfl

theorem pySplit_joinComps :
    ∀ (cs : List String), (∀ c ∈ cs, c ≠ "" ∧ '/' ∉ c.data) →
      pySplit (joinComps cs) = "" :: cs := by
  intro cs h
  unfold pySplit
  rw [joinComps_data cs h]
  have hmaps : cs.map (fun c => '/' :: c.data)
      = (cs.map String.data).map (fun b => '/' :: b) := by
    rw [List.map_map]; rfl
  rw [hmaps, splitSlash_blocks (cs.map String.data)
    (by intro b hb; obtain ⟨c, hc, rfl⟩ := List.mem_map.mp hb; exact (h c hc).2)]
  simp only [List.map_cons, List.map_map]
  have hid : (String.mk ∘ String.data) = id := funext fun s => mk_data_eq s
  rw [hid, List.map_id]

theorem startsWithSlash_joinComps (c : String) (cs : List String)
    (h : ∀ x ∈ c :: cs, x ≠ "" ∧ '/' ∉ x.data) :
    startsWithSlash (joinComps (c :: cs)) = true := by
  unfold startsWithSlash
  rw [joinComps_data (c :: cs) h]
  simp

theorem joinComps_ne_empty (c : String) (cs : List String)
    (h : ∀ x ∈ c :: cs, x ≠ "" ∧ '/' ∉ x.data) :
    joinComps (c :: cs) ≠ "" := by
  intro he
  have := congrArg String.data he
  rw [joinComps_data (c :: cs) h] at this
  simp at this

theorem rpartCh_noslash : ∀ (l : List Char), '/' ∉ l → rpartCh l = none := by
  intro l
  induction l with
  | nil => intro _; rfl
  | cons c cs ih =>
    intro h
    have hc : ¬c = '/' := fun he => h (by simp [he])
    simp only [rpartCh, ih (fun hm => h (List.mem_cons_of_mem _ hm)), if_neg hc]

theorem rpartCh_append :
    ∀ (l c : List Char), '/' ∉ c → rpartCh (l ++ '/' :: c) = some l := by
  intro l c hc
  induction l with
  | nil =>
    simp [List.nil_append, rpartCh, rpartCh_noslash c hc]
  | cons x l' ih =>
    rw [List.cons_append]
    simp only [rpartCh, ih]

theorem rpartitionBefore_joinComps (cs : List String) (c : String)
    (h : ∀ x ∈ cs ++ [c], x ≠ "" ∧ '/' ∉ x.data) :
    rpartitionBefore (joinComps (cs ++ [c])) = joinComps cs := by
  unfold rpartitionBefore
  rw [joinComps_concat,
    data_appendName c (endsWithSlash_joinComps cs fun x hx => h x (by simp [hx])),
    rpartCh_append _ _ (h c (by simp)).2]

theorem normSteps_valid :
    ∀ (cs : List String) (acc : List String), (∀ c ∈ cs, ValidName c) →
      normSteps acc cs = acc ++ cs := by
  intro cs
  induction cs with
  | nil => intro acc _; rw [normSteps, List.append_nil]
  | cons c rest ih =>
    intro acc h
    obtain ⟨h1, h2, h3, _⟩ := h c (by simp)
    have hcond : ¬(c = "" ∨ c = ".") := by
      rintro (hx | hx)
      exacts [h1 hx, h2 hx]
    simp only [normSteps, if_neg hcond, if_neg h3]
    rw [ih _ (fun x hx => h x (List.mem_cons_of_mem _ hx))]
    simp

theorem valid_weaken {cs : List String} (h : ∀ c ∈ cs, ValidName c) :
    ∀ c ∈ cs, c ≠ "" ∧ '/' ∉ c.data :=
  fun c hc => ⟨(h c hc).1, (h c hc).2.2.2⟩

theorem normpath_joinComps (cs : List String) (h : ∀ c ∈ cs, ValidName c)
    (hne : cs ≠ []) : normpath (joinComps cs) = joinComps cs := by
  rcases cs with _ | ⟨c, rest⟩
  · exact absurd rfl hne
  · unfold normpath
    rw [pySplit_joinComps _ (valid_weaken h)]
    have hskip : normSteps [] ("" :: c :: rest) = normSteps [] (c :: rest) := by
      rw [normSteps]
      exact if_pos (Or.inl rfl)
    rw [hskip, normSteps_valid _ _ h, List.nil_append,
      startsWithSlash_joinComps c rest (valid_weaken h)]
    rw [if_pos rfl, if_neg (joinComps_ne_empty c rest (valid_weaken h))]

theorem seenGet_seenSet (seen : Seen) (k : String) (v : Option String) (k' : String) :
    seenGet (seenSet seen k v) k' = if k' = k then some v else seenGet seen k' := by
  induction seen with
  | nil =>
    simp only [seenSet, seenGet]
    by_cases h : k = k'
    · rw [if_pos h, if_pos h.symm]
    · rw [if_neg h, if_neg (fun he => h he.symm)]
  | cons kv rest ih =>
    obtain ⟨k0, v0⟩ := kv
    simp only [seenSet]
    by_cases h0 : k0 = k
    · rw [if_pos h0]
      subst h0
      simp only [seenGet]
      by_cases h : k0 = k'
      · rw [if_pos h, if_pos h.symm]
      · rw [if_neg h, if_neg (fun he => h he.symm), if_neg h]
    · rw [if_neg h0]
      simp only [seenGet, ih]
      by_cases h1 : k0 = k'
      · have h2 : ¬(k' = k) := fun he => h0 (h1.trans he)
        rw [if_pos h1, if_neg h2, if_pos h1]
      · by_cases h2 : k' = k
        · rw [if_neg h1, if_pos h2, if_pos h2]
        · rw [if_neg h1, if_neg h2, if_neg h2, if_neg h1]

theorem SeenOk_nil (fs : Fs) : SeenOk fs [] := by
  intro k v h
  simp [seenGet] at h

theorem SeenOk_set_none {fs : Fs} {seen : Seen} (h : SeenOk fs seen) (k : String) :
    SeenOk fs (seenSet seen k none) := by
  intro k' v hget
  rw [seenGet_seenSet] at hget
  by_cases he : k' = k
  · rw [if_pos he] at hget
    cases hget
  · rw [if_neg he] at hget
    exact h k' v hget

theorem SeenOk_set_some {fs : Fs} {seen : Seen} {v : String}
    (h : SeenOk fs seen) (hv : GoodStr fs v) (k : String) :
    SeenOk fs (seenSet seen k (some v)) := by
  intro k' w hget
  rw [seenGet_seenSet] at hget
  by_cases he : k' = k
  · rw [if_pos he] at hget
    simp only [Option.some.injEq] at hget
    exact hget ▸ hv
  · rw [if_neg he] at hget
    exact h k' w hget

theorem GoodStr_empty (fs : Fs) : GoodStr fs "" :=
  ⟨[], by simp, fun ds es hds hne => absurd (List.append_eq_nil.mp hds.symm).1 hne, rfl⟩

theorem linkSucceeds_eq_false {fs : Fs} {q : String} {e : FsErr}
    (h : fs.readlink q = .error e) : linkSucceeds fs q = false := by
  unfold linkSucceeds
  rw [h]

theorem exists_error_of_not_linkSucceeds {fs : Fs} {q : String}
    (h : linkSucceeds fs q = false) : ∃ e, fs.readlink q = .error e := by
  unfold linkSucceeds at h
  rcases hr : fs.readlink q with e | t
  · exact ⟨e, rfl⟩
  · rw [hr] at h
    cases h

theorem concat_split {ds es cs : List String} {name : String}
    (h : ds ++ es = cs ++ [name]) (hne : es ≠ []) : ∃ es', cs = ds ++ es' := by
  rcases List.eq_nil_or_concat es with he | ⟨es', l, he⟩
  · exact absurd he hne
  · subst he
    rw [List.concat_eq_append, ← List.append_assoc, ← List.concat_eq_append,
      ← List.concat_eq_append] at h
    exact ⟨es', ((List.concat_inj.mp h).1).symm⟩

theorem GoodStr_rpartitionBefore {fs : Fs} {s : String} (h : GoodStr fs s) :
    GoodStr fs (rpartitionBefore s) := by
  obtain ⟨cs, hval, hvet, rfl⟩ := h
  rcases List.eq_nil_or_concat cs with hnil | ⟨cs', c, hc⟩
  · subst hnil
    exact GoodStr_empty fs
  · rw [List.concat_eq_append] at hc
    subst hc
    rw [rpartitionBefore_joinComps cs' c (valid_weaken hval)]
    refine ⟨cs', fun x hx => hval x (by simp [hx]), ?_, rfl⟩
    intro ds es hsplit hne
    exact hvet ds (es ++ [c]) (by rw [hsplit, List.append_assoc]) hne

theorem splitSlash_comp_noslash :
    ∀ (l : List Char) (g : List Char), g ∈ splitSlash l → '/' ∉ g := by
  intro l
  induction l with
  | nil =>
    intro g hg
    simp only [splitSlash, List.mem_singleton] at hg
    subst hg
    simp
  | cons c cs ih =>
    intro g hg
    by_cases hc : c = '/'
    · rw [splitSlash, if_pos hc] at hg
      rcases List.mem_cons.mp hg with hg | hg
      · subst hg; simp
      · exact ih g hg
    · rw [splitSlash, if_neg hc] at hg
      rcases hsp : splitSlash cs with _ | ⟨g0, gs⟩
      · rw [hsp] at hg
        simp only [List.mem_singleton] at hg
        subst hg
        simp only [List.mem_singleton]
        exact fun h => hc h.symm
      · rw [hsp] at hg
        rcases List.mem_cons.mp hg with hg | hg
        · subst hg
          intro hmem
          rcases List.mem_cons.mp hmem with hx | hx
          · exact hc hx.symm
          · exact ih g0 (by rw [hsp]; exact List.mem_cons_self g0 gs) hx
        · exact ih g (by rw [hsp]; exact List.mem_cons_of_mem _ hg)

theorem pySplit_noslash (s : String) : ∀ n ∈ pySplit s, '/' ∉ n.data := by
  intro n hn
  unfold pySplit at hn
  obtain ⟨g, hg, rfl⟩ := List.mem_map.mp hn
  exact splitSlash_comp_noslash s.data g hg

theorem resolveGo_good {fs : Fs}
    {recur : Seen → String → String → Option (Except ResolveErr (String × Seen))}
    (hrec : ∀ seen path rest r seen', SeenOk fs seen → GoodStr fs path →
        recur seen path rest = some (.ok (r, seen')) → GoodStr fs r ∧ SeenOk fs seen') :
    ∀ (names : List String), (∀ n ∈ names, '/' ∉ n.data) →
      ∀ seen path r seen', SeenOk fs seen → GoodStr fs path →
        resolveGo fs false recur seen path names = some (.ok (r, seen')) →
        GoodStr fs r ∧ SeenOk fs seen' := by
  intro names
  induction names with
  | nil =>
    intro _ seen path r seen' hseen hpath hres
    simp only [resolveGo, Option.some.injEq, Except.ok.injEq, Prod.mk.injEq] at hres
    exact ⟨hres.1 ▸ hpath, hres.2 ▸ hseen⟩
  | cons name names ih =>
    intro hns seen path r seen' hseen hpath hres
    have hns' : ∀ n ∈ names, '/' ∉ n.data := fun n hn => hns n (List.mem_cons_of_mem _ hn)
    simp only [resolveGo] at hres
    by_cases h1 : name = "" ∨ name = "."
    · rw [if_pos h1] at hres
      exact ih hns' _ _ _ _ hseen hpath hres
    · rw [if_neg h1] at hres
      by_cases h2 : name = ".."
      · rw [if_pos h2] at hres
        exact ih hns' _ _ _ _ hseen (GoodStr_rpartitionBefore hpath) hres
      · rw [if_neg h2] at hres
        rcases hsg : seenGet seen (appendName path name) with _ | ov
        · simp only [hsg] at hres
          rcases hrl : fs.readlink (appendName path name) with e | t
          · simp only [hrl] at hres
            rw [if_neg (by simp)] at hres
            have hval : ValidName name :=
              ⟨fun h => h1 (Or.inl h), fun h => h1 (Or.inr h), h2, hns name (by simp)⟩
            have hgood : GoodStr fs (appendName path name) := by
              obtain ⟨cs, hv, hvet, rfl⟩ := hpath
              refine ⟨cs ++ [name], ?_, ?_, (joinComps_concat cs name).symm⟩
              · intro x hx
                rcases List.mem_append.mp hx with hx | hx
                · exact hv x hx
                · simp only [List.mem_singleton] at hx
                  subst hx
                  exact hval
              · intro ds es hsplit hne
                by_cases hes : es = []
                · subst hes
                  rw [List.append_nil] at hsplit
                  rw [← hsplit, joinComps_concat]
                  exact linkSucceeds_eq_false hrl
                · obtain ⟨es', hcs⟩ := concat_split hsplit.symm hes
                  exact hvet ds es' hcs hne
            exact ih hns' _ _ _ _ hseen hgood hres
          · simp only [hrl] at hres
            rcases hr2 : recur (seenSet seen (appendName path name) none) path t with _ | r2
            · simp [hr2] at hres
            · simp only [hr2] at hres
              rcases r2 with err | pr
              · simp at hres
              · obtain ⟨p', seen1⟩ := pr
                have hrec1 := hrec _ _ _ _ _ (SeenOk_set_none hseen _) hpath hr2
                exact ih hns' _ _ _ _ (SeenOk_set_some hrec1.2 hrec1.1 _) hrec1.1 hres
        · rcases ov with _ | cached
          · simp only [hsg] at hres
            simp at hres
          · simp only [hsg] at hres
            exact ih hns' _ _ _ _ hseen (hseen _ _ hsg) hres

theorem resolveRec_good {fs : Fs} :
    ∀ (fuel : Nat) (seen : Seen) (path rest : String) r seen',
      SeenOk fs seen → GoodStr fs path →
      resolveRec fs false fuel seen path rest = some (.ok (r, seen')) →
      GoodStr fs r ∧ SeenOk fs seen' := by
  intro fuel
  induction fuel with
  | zero =>
    intro seen path rest r seen' _ _ h
    simp [resolveRec] at h
  | succ fuel ih =>
    intro seen path rest r seen' hseen hpath h
    simp only [resolveRec] at h
    have hgood2 : GoodStr fs (if startsWithSlash rest then "" else path) := by
      by_cases hs : startsWithSlash rest = true
      · rw [if_pos hs]
        exact GoodStr_empty fs
      · rw [if_neg hs]
        exact hpath
    exact resolveGo_good (fun s p t r2 s2 h1 h2 h3 => ih s p t r2 s2 h1 h2 h3)
      (pySplit rest) (pySplit_noslash rest) _ _ _ _ hseen hgood2 h

theorem resolveGo_self {fs : Fs}
    {recur : Seen → String → String → Option (Except ResolveErr (String × Seen))} :
    ∀ (es ds : List String), (∀ c ∈ ds ++ es, ValidName c) → VettedComps fs (ds ++ es) →
      resolveGo fs false recur [] (joinComps ds) es
        = some (.ok (joinComps (ds ++ es), [])) := by
  intro es
  induction es with
  | nil =>
    intro ds _ _
    simp [resolveGo]
  | cons name es ih =>
    intro ds hval hvet
    have hnv : ValidName name := hval name (by simp)
    obtain ⟨hn1, hn2, hn3, _⟩ := hnv
    simp only [resolveGo]
    rw [if_neg (fun hor => by rcases hor with h | h; exacts [hn1 h, hn2 h]), if_neg hn3]
    have hls : linkSucceeds fs (joinComps (ds ++ [name])) = false := by
      apply hvet (ds ++ [name]) es (by simp) (by simp)
    obtain ⟨e, he⟩ := exists_error_of_not_linkSucceeds hls
    have he' : fs.readlink (appendName (joinComps ds) name) = .error e := by
      rw [← joinComps_concat]
      exact he
    simp only [seenGet, he']
    rw [if_neg (by simp)]
    rw [← joinComps_concat]
    have hassoc : ds ++ name :: es = (ds ++ [name]) ++ es := by simp
    have := ih (ds ++ [name])
      (by intro x hx; apply hval; rw [hassoc]; exact hx)
      (by rw [hassoc] at hvet; exact hvet)
    rw [this, hassoc]

theorem resolveGo_skip {fs : Fs} {strict : Bool} {recur} {seen : Seen}
    {path name : String} {names : List String} (h : name = "" ∨ name = ".") :
    resolveGo fs strict recur seen path (name :: names)
      = resolveGo fs strict recur seen path names := by
  simp only [resolveGo]
  rw [if_pos h]

theorem resolveGo_nil {fs : Fs} {strict : Bool} {recur} {seen : Seen} {path : String} :
    resolveGo fs strict recur seen path [] = some (.ok (path, seen)) := by
  simp [resolveGo]

theorem resolve_root_step (fs : Fs) (fuel' : Nat) :
    resolveRec fs false (fuel' + 1) [] "" "/" = some (.ok ("", [])) := by
  simp only [resolveRec, ite_self]
  have hps : pySplit "/" = ["", ""] := rfl
  rw [hps, resolveGo_skip (Or.inl rfl), resolveGo_skip (Or.inl rfl), resolveGo_nil]

/-- C2: resolve is idempotent in non-strict mode: whenever `resolve(p)`
yields the canonical string `s`, resolving `s` again yields `s` itself
(any positive fuel suffices for the second call, since no symlink is
followed on a fully resolved string). -/
theorem resolve_idempotent :
    ∀ (fs : Fs) (fuel : Nat) (p s : String),
      targetResolve fs false fuel p = some (.ok s) →
      ∀ (fuel' : Nat), targetResolve fs false (fuel' + 1) s = some (.ok s) := by
  intro fs fuel p s h fuel'
  unfold targetResolve targetResolveWith flavourResolve flavourResolveRaw at h
  rcases hr : resolveRec fs false fuel [] "" p with _ | r0
  · rw [hr] at h
    simp at h
  · rw [hr] at h
    rcases r0 with err | pr
    · simp [Except.map] at h
    · obtain ⟨r, seenF⟩ := pr
      simp only [Option.map_some', Except.map] at h
      simp only [Option.some.injEq, Except.ok.injEq] at h
      have hgood : GoodStr fs r :=
        (resolveRec_good fuel [] "" p r seenF (SeenOk_nil fs) (GoodStr_empty fs) hr).1
      obtain ⟨cs, hv, hvet, rfl⟩ := hgood
      rcases hcs : cs with _ | ⟨c, cs'⟩
      · -- joinComps [] = "", the walk produced the empty string, rendered as "/"
        subst hcs
        have hs : s = "/" := by
          rw [← h]
          rfl
        subst hs
        unfold targetResolve targetResolveWith flavourResolve flavourResolveRaw
        rw [resolve_root_step fs fuel']
        rfl
      · subst hcs
        have hne : joinComps (c :: cs') ≠ "" := joinComps_ne_empty c cs' (valid_weaken hv)
        have hs : s = joinComps (c :: cs') := by
          rw [← h, if_neg hne, normpath_joinComps _ hv (by simp)]
        subst hs
        have hstep : resolveRec fs false (fuel' + 1) [] "" (joinComps (c :: cs'))
            = some (.ok (joinComps (c :: cs'), [])) := by
          simp only [resolveRec, ite_self]
          rw [pySplit_joinComps _ (valid_weaken hv), resolveGo_skip (Or.inl rfl)]
          have := @resolveGo_self fs (resolveRec fs false fuel')
            (c :: cs') [] (by simpa using hv) (by simpa using hvet)
          simpa using this
        unfold targetResolve targetResolveWith flavourResolve flavourResolveRaw
        rw [hstep]
        simp only [Option.map_some', Except.map]
        rw [if_neg hne, normpath_joinComps _ hv (by simp)]

theorem walkGo_append (fs : WalkFs) (td oe : Bool) :
    ∀ (f : Nat) (xs ys : List WItem),
      walkGo fs td oe f (xs ++ ys)
        = match walkGo fs td oe f xs with
          | none => none
          | some (t1, e1, f1) =>
            match walkGo fs td oe f1 ys with
            | none => none
            | some (t2, e2, f2) => some (t1 ++ t2, e1 ++ e2, f2) := by
  intro f
  induction f with
  | zero =>
    intro xs ys
    cases xs with
    | nil =>
      simp only [List.nil_append]
      rcases h : walkGo fs td oe 0 ys with _ | r
      · simp [walkGo, h]
      · obtain ⟨t2, e2, f2⟩ := r
        simp [walkGo, h]
    | cons it xs' =>
      rfl
  | succ f ih =>
    intro xs ys
    cases xs with
    | nil =>
      simp only [List.nil_append]
      rcases h : walkGo fs td oe (f + 1) ys with _ | r
      · simp [walkGo, h]
      · obtain ⟨t2, e2, f2⟩ := r
        simp [walkGo, h]
    | cons it xs' =>
      cases it with
      | triple t =>
        simp only [List.cons_append, walkGo, List.append_eq]
        rw [ih xs' ys]
        rcases h1 : walkGo fs td oe f xs' with _ | r1
        · simp
        · obtain ⟨t1, e1, f1⟩ := r1
          rcases h2 : walkGo fs td oe f1 ys with _ | r2
          · simp [h2]
          · obtain ⟨t2, e2, f2⟩ := r2
            simp [h2]
      | path p =>
        rcases hsc : fs.scandir p with e | entries
        · simp only [List.cons_append, walkGo, hsc, List.append_eq]
          rw [ih xs' ys]
          rcases h1 : walkGo fs td oe f xs' with _ | r1
          · simp
          · obtain ⟨t1, e1, f1⟩ := r1
            rcases h2 : walkGo fs td oe f1 ys with _ | r2
            · simp [h2]
            · obtain ⟨t2, e2, f2⟩ := r2
              simp only [h2]
              cases oe with
              | true => simp [h2]
              | false => simp [h2]
        · cases td with
          | true =>
            simp only [List.cons_append, walkGo, hsc, if_true, List.append_eq]
            rw [← List.append_assoc, ih _ ys]
            rcases h1 : walkGo fs true oe f
                (((dirnamesOf entries).map fun d => WItem.path (appendName p d)) ++ xs')
                with _ | r1
            · simp
            · obtain ⟨t1, e1, f1⟩ := r1
              rcases h2 : walkGo fs true oe f1 ys with _ | r2
              · simp [h2]
              · obtain ⟨t2, e2, f2⟩ := r2
                simp [h2]
          | false =>
            simp only [List.cons_append, walkGo, hsc, Bool.false_eq_true, if_false,
              List.append_eq]
            rw [show (((dirnamesOf entries).map fun d => WItem.path (appendName p d))
                ++ WItem.triple (p, dirnamesOf entries, filenamesOf entries) :: (xs' ++ ys))
              = ((((dirnamesOf entries).map fun d => WItem.path (appendName p d))
                ++ WItem.triple (p, dirnamesOf entries, filenamesOf entries) :: xs') ++ ys)
              from by simp]
            rw [ih _ ys]

/-- C7: with topDown=true a directory's triple is emitted strictly
before everything produced by walking its children, and with
topDown=false it is emitted only after the complete output of its
children's walks. -/
theorem walk_emission_order :
    ∀ (fs : WalkFs) (oe : Bool) (f : Nat) (p : String) (entries : List (String × Bool))
      (ts : List WalkTriple) (es : List FsErr) (fr : Nat),
      fs.scandir p = .ok entries →
      ((walkGo fs true oe (f + 1) [.path p] = some (ts, es, fr) →
          ∃ sub, walkGo fs true oe f
              ((dirnamesOf entries).map fun d => WItem.path (appendName p d))
              = some (sub, es, fr)
            ∧ ts = (p, dirnamesOf entries, filenamesOf entries) :: sub)
       ∧ (walkGo fs false oe (f + 1) [.path p] = some (ts, es, fr) →
          ∃ sub, walkGo fs false oe f
              ((dirnamesOf entries).map fun d => WItem.path (appendName p d))
              = some (sub, es, fr + 1)
            ∧ ts = sub ++ [(p, dirnamesOf entries, filenamesOf entries)])) := by
  intro fs oe f p entries ts es fr hsc
  constructor
  · intro h
    simp only [walkGo, hsc, if_true, List.append_nil] at h
    rcases h1 : walkGo fs true oe f
        ((dirnamesOf entries).map fun d => WItem.path (appendName p d)) with _ | r1
    · rw [h1] at h
      simp at h
    · obtain ⟨sub, es0, fr0⟩ := r1
      rw [h1] at h
      simp only [Option.map_some', Option.some.injEq, Prod.mk.injEq] at h
      exact ⟨sub, by rw [h.2.1, h.2.2], h.1.symm⟩
  · intro h
    simp only [walkGo, hsc, Bool.false_eq_true, if_false] at h
    rw [walkGo_append] at h
    rcases h1 : walkGo fs false oe f
        ((dirnamesOf entries).map fun d => WItem.path (appendName p d)) with _ | r1
    · rw [h1] at h
      simp at h
    · obtain ⟨sub, es0, fr0⟩ := r1
      rw [h1] at h
      rcases fr0 with _ | fr0'
      · simp [walkGo] at h
      · have htr : walkGo fs false oe (fr0' + 1)
            [WItem.triple (p, dirnamesOf entries, filenamesOf entries)]
            = some ([(p, dirnamesOf entries, filenamesOf entries)], [], fr0') := by
          simp [walkGo]
        simp only [htr, List.append_nil, Option.some.injEq, Prod.mk.injEq] at h
        exact ⟨sub, by rw [h.2.1, h.2.2], h.1.symm⟩

theorem resolve_idempotent_witness :
    targetResolve linkFs false 5 "/a" = some (.ok "/b")
    ∧ targetResolve linkFs false (0 + 1) "/b" = some (.ok "/b") :=
  ⟨by decide, resolve_idempotent linkFs 5 "/a" "/b" (by decide) 0⟩

theorem resolve_readlink_failure_handling_witness :
    strictFs.readlink (appendName "" "x") = .error .backendError
    ∧ resolveGo strictFs true (resolveRec strictFs true 0) [] "" ["x"]
        = some (.error (.fsError .backendError)) :=
  ⟨by decide,
   (resolve_readlink_failure_handling).2.1 strictFs true (resolveRec strictFs true 0) [] "" "x" [] .backendError
     (by decide) (by decide) (by decide) (by decide) (by decide) (by decide) rfl⟩

theorem resolve_empty_renders_root_witness :
    flavourResolveRaw emptyFs false 2 "/.." = some (.ok "")
    ∧ flavourResolve emptyFs false 2 "/.." = some (.ok "/") :=
  ⟨by decide, (resolve_empty_renders_root).2.1 emptyFs false 2 "/.." (by decide)⟩

theorem walk_onerror_fault_tolerance_witness :
    walkFsA.scandir "/a/bad" = .error .backendError
    ∧ walkGo walkFsA true true 3 [WItem.path "/a/bad"]
        = (walkGo walkFsA true true 2 []).map fun r =>
            (r.1, FsErr.backendError :: r.2.1, r.2.2) :=
  ⟨by decide, (walk_onerror_fault_tolerance).1 walkFsA true 2 "/a/bad" [] .backendError (by decide)⟩

theorem walk_emission_order_witness :
    walkFsB.scandir "/r" = .ok [("d", true)]
    ∧ ∃ sub, walkGo walkFsB true true 3
          ((dirnamesOf [("d", true)]).map fun d => WItem.path (appendName "/r" d))
          = some (sub, [], 2)
        ∧ [("/r", ["d"], []), ("/r/d", [], [])]
            = ("/r", dirnamesOf [("d", true)], filenamesOf [("d", true)]) :: sub :=
  ⟨by decide,
   (walk_emission_order walkFsB true 3 "/r" [("d", true)]
      [("/r", ["d"], []), ("/r/d", [], [])] [] 2 (by decide)).1 (by decide)⟩
